import Mathlib

/-!
Shallow embedding of the `mega-memoize` library (sync `memoize` core, async
`memoizeAsync` extension with in-flight deduplication, the smart key
normalizer and the smart value serializer), with theorems checking the
specification's claims against the code.

JavaScript values relevant to the cache cores are modelled by `Val`
(`null` and `undefined` are separate constructors, both "nullish");
values relevant to the codecs are modelled by `JVal`; the JSON text
produced by `JSON.stringify` is modelled by the `Json` tree it denotes,
rendered to an actual string by `Json.render` where the claims compare
strings.
-/

/-! ## Values seen by the memoization cores

`Val` models a JavaScript runtime value as seen by `memoize` /
`memoizeAsync`: the only structure those cores inspect is whether a value
is nullish (`value != null` in the source, which is false exactly for
`null` and `undefined`). `promiseRef id` models a promise object by its
identity, as stored in the promise cache of `memoizeAsync`. -/

inductive Val where
  | vnull
  | vundefined
  | bool (b : Bool)
  | num (n : Int)
  | str (s : String)
  | promiseRef (id : Nat)
  deriving DecidableEq, Repr

/-- Model of the JavaScript test `value != null` (loose inequality):
false exactly for `null` and `undefined`. -/
def Val.nonNullish : Val → Bool
  | .vnull => false
  | .vundefined => false
  | _ => true

/-- Options object of `memoize` (src/unnamed/part_002) and `memoizeAsync`
(src/unnamed/part_003): both policy callbacks are optional. A missing
`options` object is modelled by both fields being `none`. -/
structure MemoizeOptions (α : Type) where
  shouldRecalculate : Option (Val → α → Bool) := none
  shouldCache : Option (Val → α → Bool) := none

/-- Model of `options?.shouldRecalculate?.(result, ...args)` used under `!`:
when the callback is absent the optional call evaluates to `undefined`,
which is falsy, so the effective decision is `false`. -/
def runShouldRecalculate {α : Type} (o : MemoizeOptions α) (r : Val) (args : α) : Bool :=
  match o.shouldRecalculate with
  | none => false
  | some f => f r args

/-- Model of `options?.shouldCache?.(newResult, ...args) ?? true`:
when the callback is absent the nullish coalescing defaults to `true`. -/
def runShouldCache {α : Type} (o : MemoizeOptions α) (r : Val) (args : α) : Bool :=
  match o.shouldCache with
  | none => true
  | some f => f r args

/-- One observable mutation of the result cache for the call's key:
`cache.set(args, v)` or `cache.delete(args)`. -/
inductive CacheOp where
  | set (v : Val)
  | del
  deriving DecidableEq, Repr

/-- Observable behaviour of one call of the wrapper returned by `memoize`:
the returned-or-thrown outcome, whether the wrapped `fn` was invoked, and
the cache mutations performed for the call's key (in order). -/
structure CallTrace (ε : Type) where
  ret : Except ε Val
  fnInvoked : Bool
  ops : List CacheOp
  deriving Repr

/-- Shallow embedding of one call of the wrapper returned by `memoize`
(src/unnamed/part_002, body of the returned closure):

  const result = cache.get(args);
  if (result != null && !options?.shouldRecalculate?.(result, ...args)) {
    return result;
  }
  const newResult = fn(...args);
  if (newResult != null &&
      (options?.shouldCache?.(newResult, ...args) ?? true)) {
    cache.set(args, newResult);
  } else {
    cache.delete(args);
  }
  return newResult;

`getResult` is what `cache.get(args)` returned (a `MemoizeCache.get` may
report absence as either nullish form), and `fn` is the outcome of
`fn(...args)`: `.error e` models a thrown exception, which propagates
before any `set`/`delete` runs. -/
def memoizeCall {α ε : Type} (getResult : Val) (o : MemoizeOptions α) (args : α)
    (fn : Except ε Val) : CallTrace ε :=
  if getResult.nonNullish && !(runShouldRecalculate o getResult args) then
    { ret := .ok getResult, fnInvoked := false, ops := [] }
  else
    match fn with
    | .error e => { ret := .error e, fnInvoked := true, ops := [] }
    | .ok newResult =>
      if newResult.nonNullish && runShouldCache o newResult args then
        { ret := .ok newResult, fnInvoked := true, ops := [CacheOp.set newResult] }
      else
        { ret := .ok newResult, fnInvoked := true, ops := [CacheOp.del] }

/-- Observable behaviour of one run of the inner async closure built by
`memoizeAsync`: same data as `CallTrace` plus the fact recorded by the
`finally` block, namely whether `promiseCache.delete(args)` ran. -/
structure AsyncBodyTrace (ε : Type) where
  ret : Except ε Val
  fnInvoked : Bool
  ops : List CacheOp
  promiseCacheDeleted : Bool
  deriving Repr

/-- Shallow embedding of one run of the inner `async (...args) => ...`
closure of `memoizeAsync` (src/unnamed/part_003, lines 398-421):

  try {
    const result = await cache.get(args);
    if (result != null &&
        !(await options?.shouldRecalculate?.(result, ...args))) {
      return result;
    }
    const newResult = await fn(...args);
    if (newResult != null &&
        ((await options?.shouldCache?.(newResult, ...args)) ?? true)) {
      await cache.set(args, newResult);
    } else {
      await cache.delete(args);
    }
    return newResult;
  } finally {
    promiseCache.delete(args);
  }

The branch structure is identical to `memoizeCall`; the `finally` clause
deletes the promise-cache entry on every path, including the rethrowing
one. -/
def memoizeAsyncBody {α ε : Type} (getResult : Val) (o : MemoizeOptions α) (args : α)
    (fn : Except ε Val) : AsyncBodyTrace ε :=
  if getResult.nonNullish && !(runShouldRecalculate o getResult args) then
    { ret := .ok getResult, fnInvoked := false, ops := [], promiseCacheDeleted := true }
  else
    match fn with
    | .error e =>
      { ret := .error e, fnInvoked := true, ops := [], promiseCacheDeleted := true }
    | .ok newResult =>
      if newResult.nonNullish && runShouldCache o newResult args then
        { ret := .ok newResult, fnInvoked := true, ops := [CacheOp.set newResult],
          promiseCacheDeleted := true }
      else
        { ret := .ok newResult, fnInvoked := true, ops := [CacheOp.del],
          promiseCacheDeleted := true }

/-! ## Association lists

Tiny association-list model of the JavaScript `Map` used by `memoryCache`
(src/memoryCache.ts): only `get` / `set` / `delete` are ever used by the
cores, so the model need only be faithful up to `alookup`. -/

def alookup {κ β : Type} [DecidableEq κ] : List (κ × β) → κ → Option β
  | [], _ => none
  | (k, v) :: rest, k0 => if k = k0 then some v else alookup rest k0

def aerase {κ β : Type} [DecidableEq κ] : List (κ × β) → κ → List (κ × β)
  | [], _ => []
  | (k, v) :: rest, k0 => if k = k0 then aerase rest k0 else (k, v) :: aerase rest k0

/-- `map.set(k, v)` up to `alookup`: remove any binding for `k`, bind `k`. -/
def ainsert {κ β : Type} [DecidableEq κ] (l : List (κ × β)) (k : κ) (v : β) : List (κ × β) :=
  (k, v) :: aerase l k

/-! ## State machine for `memoizeAsync`

`memoizeAsync` (src/unnamed/part_003, lines 392-426) composes two layers:
the inner async closure embedded above as `memoizeAsyncBody`, and an outer
deduplication layer obtained by passing that closure through the *sync*
`memoize` with the promise cache (default `memoryCache()`) as its cache
and no policy callbacks.

The model below is a state machine over the default in-memory backends,
with promises identified by allocation order (`Nat` ids).  JavaScript's
single-threaded cooperative scheduling is modelled by two transitions:

* `asyncCall` — a new outer call.  It runs synchronously up to the inner
  closure's first `await`: the outer `memoize` looks the arguments up in
  the promise cache; a stored promise is non-nullish and the outer options
  carry no `shouldRecalculate`, so a hit returns that same promise and
  does nothing else.  On a miss, invoking the inner async closure first
  evaluates `cache.get(args)` synchronously (the default `memoryCache` is
  synchronous; `await` evaluates its operand before suspending), returns a
  fresh pending promise, and the outer `memoize` stores it in the promise
  cache (the promise is non-nullish and `shouldCache` defaults to true).

* `asyncSettle` — the scheduler resumes a pending inner closure and runs
  it to completion (`memoizeAsyncBody`).  Only one closure per normalized
  key can ever be pending, and closures for different keys touch disjoint
  cache slots, so running the remainder of a body atomically is
  observationally faithful for per-key properties. -/

structure AsyncEnv (α κ ε : Type) where
  normalize : α → κ
  fnOut : α → Except ε Val
  opts : MemoizeOptions α

structure AsyncState (α κ ε : Type) where
  promiseCache : List (κ × Nat)
  resultCache : List (κ × Val)
  pending : List (Nat × α × Val)
  settled : List (Nat × Except ε Val)
  fnLog : List α
  nextId : Nat

/-- The machine state before any call: both default `memoryCache()` maps
empty, no pending or settled promise, no `fn` invocation recorded. -/
def AsyncState.init {α κ ε : Type} : AsyncState α κ ε :=
  { promiseCache := [], resultCache := [], pending := [], settled := [],
    fnLog := [], nextId := 0 }

/-- What `cache.get(args)` (the default `memoryCache`) reports for a key:
the stored value, or `undefined` when the map has no entry. -/
def resultGet {κ : Type} [DecidableEq κ] (resultCache : List (κ × Val)) (k : κ) : Val :=
  (alookup resultCache k).getD .vundefined

/-- One outer call of the `memoizeAsync` wrapper with arguments `args`.
Returns the new state and the promise the caller receives. -/
def asyncCall {α κ ε : Type} [DecidableEq κ] (env : AsyncEnv α κ ε)
    (s : AsyncState α κ ε) (args : α) : AsyncState α κ ε × Nat :=
  let k := env.normalize args
  match alookup s.promiseCache k with
  | some p => (s, p)
  | none =>
    let p := s.nextId
    ({ s with
        promiseCache := ainsert s.promiseCache k p,
        pending := (p, args, resultGet s.resultCache k) :: s.pending,
        nextId := p + 1 }, p)

/-- Apply a body's cache mutations (`set` / `delete` at the call's key) to
the result cache. -/
def applyOps {κ : Type} [DecidableEq κ] (m : List (κ × Val)) (k : κ) : List CacheOp → List (κ × Val)
  | [] => m
  | CacheOp.set v :: rest => applyOps (ainsert m k v) k rest
  | CacheOp.del :: rest => applyOps (aerase m k) k rest

/-- The scheduler resumes pending promise `p` and runs its body to
completion.  A promise that is not pending (already settled, or never
allocated) makes this a no-op: a body runs exactly once. -/
def asyncSettle {α κ ε : Type} [DecidableEq κ] (env : AsyncEnv α κ ε)
    (s : AsyncState α κ ε) (p : Nat) : AsyncState α κ ε :=
  match alookup s.pending p with
  | none => s
  | some (args, getRes) =>
    let k := env.normalize args
    let t := memoizeAsyncBody getRes env.opts args (env.fnOut args)
    { s with
      pending := aerase s.pending p,
      fnLog := if t.fnInvoked then args :: s.fnLog else s.fnLog,
      resultCache := applyOps s.resultCache k t.ops,
      promiseCache := if t.promiseCacheDeleted then aerase s.promiseCache k else s.promiseCache,
      settled := (p, t.ret) :: s.settled }

/-! ## Decimal strings

Both codecs print integers in decimal (`BigInt.prototype.toString`,
JSON number grammar restricted to the integers the claims exercise) and
`parse` reconstructs a `BigInt` with the `BigInt(string)` constructor.
Core `Nat.repr` / `String.toInt?` do not reduce inside the kernel, so the
decimal codec is spelled out here over `List Char`, fuel-structurally. -/

/-- Big-endian decimal digits of `n`, written with `fuel ≥ n` so the
recursion is structural (hence kernel-reducible). -/
def printNatAux : Nat → Nat → List Char
  | 0, _ => []
  | fuel + 1, n =>
    if n < 10 then [Nat.digitChar n]
    else printNatAux fuel (n / 10) ++ [Nat.digitChar (n % 10)]

/-- Decimal form of a natural number, e.g. `printNat 105 = ['1','0','5']`. -/
def printNat (n : Nat) : List Char := printNatAux (n + 1) n

/-- Decimal form of an integer: `BigInt.prototype.toString` (and the JSON
rendering of an integral number): optional leading minus sign. -/
def printInt (n : Int) : List Char :=
  if n < 0 then '-' :: printNat n.natAbs else printNat n.toNat

/-- Numeric value of a decimal digit character. -/
def charToDigit (c : Char) : Nat := c.toNat - 48

/-- Value of a big-endian list of decimal digit characters. -/
def valOfChars (l : List Char) : Nat :=
  l.foldl (fun acc c => acc * 10 + charToDigit c) 0

/-- Model of `BigInt(string)` on the decimal strings produced by
`toString`: an optional minus sign followed by digits.  (`BigInt` throws
on malformed input; such strings are never produced by the codec and the
model simply reads the digit values.) -/
def parseInt (l : List Char) : Int :=
  match l with
  | '-' :: rest => -(valOfChars rest : Int)
  | _ => (valOfChars l : Int)

/-! ## Source values and JSON trees for the codecs

`JVal` models the JavaScript values the two codecs care about.  `token id`
models a value `JSON.stringify` cannot serialize (a `Symbol` or a
function), identified within one process by `id`.  `date iso` models a
`Date` carrying its `toISOString`/`toJSON` form; `urlsearchparams q`
carries the `toString()` form.  Maps, sets, objects and buffers carry
their contents in iteration (insertion) order.

`Json` models a JSON text by the tree it denotes: `JSON.parse` applied to
the text rendered from a tree yields that same tree, so composing the two
codecs through the intermediate string is modelled by composing the tree
translations.  Numbers are restricted to integers (the values the library
claims exercise); `Json.render` below produces the exact `JSON.stringify`
text where claims compare strings. -/

inductive JVal where
  | vnull
  | vundefined
  | bool (b : Bool)
  | num (n : Int)
  | str (s : String)
  | bigint (n : Int)
  | date (iso : String)
  | token (id : Nat)
  | uint8array (bytes : List Nat)
  | arraybuffer (bytes : List Nat)
  | map (entries : List (JVal × JVal))
  | set (elems : List JVal)
  | urlsearchparams (q : String)
  | regexp (source flags : String)
  | arr (elems : List JVal)
  | obj (fields : List (String × JVal))

mutual
/-- Structural equality test on `JVal`, modelling SameValueZero on
primitives.  (On JavaScript objects SameValueZero is reference equality;
structural equality is only used below through its *negative* direction —
pairwise-distinct witnesses — where it is a sound strengthening.) -/
def jvalBEq (a b : JVal) : Bool :=
  match a, b with
  | .vnull, .vnull => true
  | .vundefined, .vundefined => true
  | .bool a, .bool b => a == b
  | .num a, .num b => a == b
  | .str a, .str b => a == b
  | .bigint a, .bigint b => a == b
  | .date a, .date b => a == b
  | .token a, .token b => a == b
  | .uint8array a, .uint8array b => a == b
  | .arraybuffer a, .arraybuffer b => a == b
  | .map a, .map b => jvalEntriesBEq a b
  | .set a, .set b => jvalListBEq a b
  | .urlsearchparams a, .urlsearchparams b => a == b
  | .regexp a b, .regexp c d => a == c && b == d
  | .arr a, .arr b => jvalListBEq a b
  | .obj a, .obj b => jvalFieldsBEq a b
  | _, _ => false
termination_by structural a
def jvalListBEq (a b : List JVal) : Bool :=
  match a, b with
  | [], [] => true
  | x :: xs, y :: ys => jvalBEq x y && jvalListBEq xs ys
  | _, _ => false
termination_by structural a
def jvalEntriesBEq (a b : List (JVal × JVal)) : Bool :=
  match a, b with
  | [], [] => true
  | (k1, v1) :: xs, (k2, v2) :: ys => jvalBEq k1 k2 && jvalBEq v1 v2 && jvalEntriesBEq xs ys
  | _, _ => false
termination_by structural a
def jvalFieldsBEq (a b : List (String × JVal)) : Bool :=
  match a, b with
  | [], [] => true
  | (k1, v1) :: xs, (k2, v2) :: ys => k1 == k2 && jvalBEq v1 v2 && jvalFieldsBEq xs ys
  | _, _ => false
termination_by structural a
end

inductive Json where
  | null
  | bool (b : Bool)
  | num (n : Int)
  | str (s : String)
  | arr (items : List Json)
  | obj (props : List (String × Json))

/-! ## Smart value serializer (src/ValueSerializer.ts)

`stringify` is `JSON.stringify(value, replacer)`.  `JSON.stringify` first
applies `toJSON` (so a `Date` reaches the replacer already as its ISO
string), then the replacer, then recursively serializes the replacement —
so the replacer also runs on everything inside the wrapper objects it
returns.  A value that serializes as `undefined` (a `Symbol`, a function,
or `undefined` itself) becomes `null` in an array position, is dropped in
an object position, and makes the whole result `undefined` at the top
level — hence the `Option`. -/

mutual
def replaceVal : JVal → Option Json
  | .vundefined => none
  | .token _ => none
  | .vnull => some .null
  | .bool b => some (.bool b)
  | .num n => some (.num n)
  | .str s => some (.str s)
  | .bigint n => some (.obj [("$bigint", .str (String.mk (printInt n)))])
  | .date iso => some (.str iso)
  | .uint8array bs => some (.obj [("$uint8array", .arr (bs.map fun b => Json.num (Int.ofNat b)))])
  | .arraybuffer bs => some (.obj [("$arraybuffer", .arr (bs.map fun b => Json.num (Int.ofNat b)))])
  | .map es => some (.obj [("$map", .arr (replaceEntries es))])
  | .set xs => some (.obj [("$set", .arr (replaceList xs))])
  | .urlsearchparams q => some (.obj [("$urlsearchparams", .str q)])
  | .regexp s f => some (.obj [("$regexp", .obj [("s", .str s), ("f", .str f)])])
  | .arr xs => some (.arr (replaceList xs))
  | .obj fs => some (.obj (replaceFields fs))
def replaceList : List JVal → List Json
  | [] => []
  | x :: xs => (replaceVal x).getD .null :: replaceList xs
def replaceEntries : List (JVal × JVal) → List Json
  | [] => []
  | (k, v) :: es =>
    .arr [(replaceVal k).getD .null, (replaceVal v).getD .null] :: replaceEntries es
def replaceFields : List (String × JVal) → List (String × Json)
  | [] => []
  | (k, v) :: fs =>
    match replaceVal v with
    | none => replaceFields fs
    | some j => (k, j) :: replaceFields fs
end

/-- Does a (revived) object own a field with this name (`"tag" in value`)? -/
def jfieldsHas (fs : List (String × JVal)) (k : String) : Bool :=
  fs.any fun f => f.1 == k

/-- Field access `value.tag` on a revived object (`undefined` if absent). -/
def jfieldsGet : List (String × JVal) → String → JVal
  | [], _ => .vundefined
  | (k1, v) :: fs, k => if k1 == k then v else jfieldsGet fs k

/-- `BigInt(x)` on the revived tag payload (a decimal string in every text
the serializer itself produces; `BigInt` throws on other objects, which
the model maps to 0). -/
def asBigInt : JVal → Int
  | .str s => parseInt s.data
  | .num n => n
  | .bool b => if b then 1 else 0
  | _ => 0

/-- `ToUint8`: how `new Uint8Array(list)` coerces an element. -/
def byteOfInt (n : Int) : Nat := (n % 256).toNat

/-- `new Uint8Array(value)` on a revived array-like payload (non-numeric
elements coerce through NaN to 0). -/
def asBytes : JVal → List Nat
  | .arr xs => xs.map fun x => match x with | .num n => byteOfInt n | _ => 0
  | _ => []

/-- The `[key, value]` pairs `new Map(iterable)` reads from its argument
(a malformed entry raises a TypeError in JavaScript; the model reads
`undefined` components, a corner no serializer output reaches). -/
def asEntries : JVal → List (JVal × JVal)
  | .arr xs => xs.map fun x => match x with
      | .arr (k :: v :: _) => (k, v)
      | .arr [k] => (k, .vundefined)
      | _ => (.vundefined, .vundefined)
  | _ => []

/-- The elements `new Set(iterable)` reads from its argument. -/
def asList : JVal → List JVal
  | .arr xs => xs
  | _ => []

/-- String coercion of a revived tag payload where the constructor expects
text (`new URLSearchParams(x)`, `new RegExp(source, flags)`). -/
def asStr : JVal → String
  | .str s => s
  | _ => ""

/-- The field list of a revived value when it is a plain object
(`value.$regexp.s` reads properties of the nested payload object). -/
def objFieldsOf : JVal → List (String × JVal)
  | .obj fs => fs
  | _ => []

/-- `Map.prototype.set`: overwrite the value in place if the key is
already present, else append the new entry. -/
def mapSetEntry : List (JVal × JVal) → JVal → JVal → List (JVal × JVal)
  | [], k, v => [(k, v)]
  | (k1, v1) :: rest, k, v =>
    if jvalBEq k1 k then (k1, v) :: rest else (k1, v1) :: mapSetEntry rest k v

/-- `new Map(entries)`: insert the entries in order. -/
def mapFromList (es : List (JVal × JVal)) : List (JVal × JVal) :=
  es.foldl (fun acc e => mapSetEntry acc e.1 e.2) []

/-- `Set.prototype.add`: append unless an equal element is present. -/
def setAdd (acc : List JVal) (x : JVal) : List JVal :=
  if acc.any (fun y => jvalBEq y x) then acc else acc ++ [x]

/-- `new Set(elems)`: add the elements in order. -/
def setFromList (xs : List JVal) : List JVal :=
  xs.foldl setAdd []

/-- The reviver of `smartValueSerializer().parse`, applied to one value
whose children have already been revived (`JSON.parse` revives bottom-up):

  if (typeof value == "object" && value != null) {
    switch (true) {
      case "$bigint" in value: return BigInt(value.$bigint);
      ...
    }
  }
  return value;

Only plain objects can own one of the tag fields (`"$bigint" in value` is
false on arrays and on revived `Map`/`Set`/buffer objects), so every
non-`obj` value falls through unchanged. -/
def reviveStep : JVal → JVal
  | .obj fs =>
    if jfieldsHas fs "$bigint" then .bigint (asBigInt (jfieldsGet fs "$bigint"))
    else if jfieldsHas fs "$uint8array" then .uint8array (asBytes (jfieldsGet fs "$uint8array"))
    else if jfieldsHas fs "$arraybuffer" then .arraybuffer (asBytes (jfieldsGet fs "$arraybuffer"))
    else if jfieldsHas fs "$map" then .map (mapFromList (asEntries (jfieldsGet fs "$map")))
    else if jfieldsHas fs "$set" then .set (setFromList (asList (jfieldsGet fs "$set")))
    else if jfieldsHas fs "$urlsearchparams" then
      .urlsearchparams (asStr (jfieldsGet fs "$urlsearchparams"))
    else if jfieldsHas fs "$regexp" then
      .regexp (asStr (jfieldsGet (objFieldsOf (jfieldsGet fs "$regexp")) "s"))
        (asStr (jfieldsGet (objFieldsOf (jfieldsGet fs "$regexp")) "f"))
    else .obj fs
  | v => v

mutual
/-- `smartValueSerializer().parse` of a JSON text, as a tree translation:
children are revived first, then the reviver runs on the holder. -/
def reviveVal : Json → JVal
  | .null => .vnull
  | .bool b => .bool b
  | .num n => .num n
  | .str s => .str s
  | .arr xs => .arr (reviveList xs)
  | .obj fs => reviveStep (.obj (reviveFields fs))
def reviveList : List Json → List JVal
  | [] => []
  | x :: xs => reviveVal x :: reviveList xs
def reviveFields : List (String × Json) → List (String × JVal)
  | [] => []
  | (k, v) :: fs => (k, reviveVal v) :: reviveFields fs
end

/-- `parse(stringify(v))`: `none` when `stringify` itself returns
`undefined` (non-serializable top-level value). -/
def serializeRoundTrip (v : JVal) : Option JVal :=
  (replaceVal v).map reviveVal

/-! ## Wellformedness for the serializer round trip -/

/-- The tag field names recognized by the reviver of
`smartValueSerializer().parse`, in the order of its `switch`. -/
def reservedTags : List String :=
  ["$bigint", "$uint8array", "$arraybuffer", "$map", "$set", "$urlsearchparams", "$regexp"]

/-- Does a plain object own one of the reserved tag fields? -/
def hasReservedTag (fs : List (String × JVal)) : Bool :=
  fs.any fun f => reservedTags.contains f.1

/-- All members pairwise distinct under `eq`. -/
def pairwiseNe {β : Type} (eq : β → β → Bool) : List β → Bool
  | [] => true
  | x :: xs => xs.all (fun y => !(eq x y)) && pairwiseNe eq xs

mutual
/-- The values on which `parse(stringify(v))` can reproduce `v` exactly:
built from the supported types, with no `Date` (always degraded to its
ISO string), no `undefined` or unserializable token (dropped or turned
into `null` by `JSON.stringify`), bytes already in range (`Uint8Array`
and `ArrayBuffer` contents always are), `Map` keys and `Set` elements
pairwise distinct (guaranteed by the originals up to the structural
reading of SameValueZero), and no plain object owning a reserved tag
field (such an object is hijacked by the reviver — claim C10). -/
def SerialWf : JVal → Bool
  | .vnull => true
  | .vundefined => false
  | .bool _ => true
  | .num _ => true
  | .str _ => true
  | .bigint _ => true
  | .date _ => false
  | .token _ => false
  | .uint8array bs => bs.all (fun b => b < 256)
  | .arraybuffer bs => bs.all (fun b => b < 256)
  | .map es => jvalEntriesWf es && pairwiseNe jvalBEq (es.map Prod.fst)
  | .set xs => jvalListWf xs && pairwiseNe jvalBEq xs
  | .urlsearchparams _ => true
  | .regexp _ _ => true
  | .arr xs => jvalListWf xs
  | .obj fs => jvalFieldsWf fs && !hasReservedTag fs
def jvalListWf : List JVal → Bool
  | [] => true
  | x :: xs => SerialWf x && jvalListWf xs
def jvalEntriesWf : List (JVal × JVal) → Bool
  | [] => true
  | (k, v) :: es => SerialWf k && SerialWf v && jvalEntriesWf es
def jvalFieldsWf : List (String × JVal) → Bool
  | [] => true
  | (_, v) :: fs => SerialWf v && jvalFieldsWf fs
end

/-! ## Smart key normalizer (src/KeyNormalizer.ts)

`smartKeyNormalizer()` is `(key) => JSON.stringify(key, replacer)` with

  switch (true) {
    case typeof value === "bigint": return value.toString();
    case value instanceof Uint8Array: return Array.from(value);
    case value instanceof ArrayBuffer: return Array.from(new Uint8Array(value));
    case value instanceof Map:
      return Object.fromEntries(Array.from(value).sort((a, b) => a[0] < b[0] ? -1 : 1));
    case value instanceof Set: return Array.from(value).sort();
    case value instanceof RegExp: return value.toString();
    default: return value;
  }

The result is compared as a *string* by the claims, so this model renders
the JSON text exactly (`Json.render`).  JavaScript compares strings by
UTF-16 code units; the model compares scalar values, which coincides on
all code points below 0x10000 (all strings the claims exercise). -/

/-- Strict lexicographic order on character lists (the JavaScript `<` on
strings, up to the code-unit caveat above). -/
def charListLt : List Char → List Char → Bool
  | [], [] => false
  | [], _ :: _ => true
  | _ :: _, [] => false
  | a :: as, b :: bs =>
    if a.toNat < b.toNat then true
    else if b.toNat < a.toNat then false
    else charListLt as bs

def strLt (a b : String) : Bool := charListLt a.data b.data

/-- Decimal value of a digit run, `none` unless nonempty and all digits
(the strings on which `ToNumber` yields the integer the model needs). -/
def digitsVal (l : List Char) : Option Nat :=
  if !l.isEmpty && l.all (fun c => 48 ≤ c.toNat && c.toNat ≤ 57) then some (valOfChars l)
  else none

/-- `ToNumber` on the values the sort comparator can meet, restricted to
the integral results the claims exercise (`none` models NaN; composite
values, which coerce through `ToPrimitive`, are left at NaN — no claim
compares them numerically). -/
def jsToNumber : JVal → Option Int
  | .num n => some n
  | .bigint n => some n
  | .bool b => some (if b then 1 else 0)
  | .vnull => some 0
  | .str s =>
    if s.data.isEmpty then some 0
    else
      match s.data with
      | '-' :: rest => (digitsVal rest).map fun v => -(v : Int)
      | l => (digitsVal l).map fun v => (v : Int)
  | _ => none

/-- The JavaScript `<` of `(a, b) => a[0] < b[0] ? -1 : 1`: string
comparison when both operands are strings, else numeric comparison on
the `ToNumber` images (false — like NaN — when either fails to convert). -/
def jsLt (a b : JVal) : Bool :=
  match a, b with
  | .str s, .str t => strLt s t
  | a, b =>
    match jsToNumber a, jsToNumber b with
    | some m, some n => decide (m < n)
    | _, _ => false

/-- Decimal images joined with commas (`TypedArray.prototype.toString`). -/
def natsJoined : List Nat → String
  | [] => ""
  | [b] => String.mk (printNat b)
  | b :: bs => String.mk (printNat b) ++ "," ++ natsJoined bs

mutual
/-- `ToString` of a value, as used by `Object.fromEntries` on `Map` keys
and by the default (comparator-less) `Array.prototype.sort` on `Set`
elements.  Corners no claim exercises are modelled explicitly: a `Date`
stringifies here to its stored text (real engines use a locale form), a
token to a per-process text built from its identity (`String(symbol)`
throws; a function yields its source text). -/
def toJsString : JVal → String
  | .vnull => "null"
  | .vundefined => "undefined"
  | .bool b => if b then "true" else "false"
  | .num n => String.mk (printInt n)
  | .str s => s
  | .bigint n => String.mk (printInt n)
  | .date iso => iso
  | .token id => String.mk ('@' :: printNat id)
  | .uint8array bs => natsJoined bs
  | .arraybuffer _ => "[object ArrayBuffer]"
  | .map _ => "[object Map]"
  | .set _ => "[object Set]"
  | .urlsearchparams q => q
  | .regexp s f => "/" ++ s ++ "/" ++ f
  | .arr xs => toJsStringList xs
  | .obj _ => "[object Object]"
/-- `Array.prototype.toString`: elements joined with commas, nullish
elements as empty strings. -/
def toJsStringList : List JVal → String
  | [] => ""
  | [x] =>
    match x with
    | .vnull => ""
    | .vundefined => ""
    | x => toJsString x
  | x :: xs =>
    (match x with
      | .vnull => ""
      | .vundefined => ""
      | x => toJsString x) ++ "," ++ toJsStringList xs
end

/-! ### The two sorts inside the normalizer

`Array.prototype.sort` is required to be stable.  `stableSortBy lt`
inserts each element in order, after every already-placed element it is
not strictly below — the unique stable sort for a comparator induced by a
key, and the sorted order for the never-tying `Map` comparator on
distinct comparable keys.  (On ties the `Map` comparator answers 1 both
ways; engines may then produce an insertion-order-dependent result, and
the model's deterministic choice keeps later entries after earlier
ones.) -/

def stableInsert {β : Type} (lt : β → β → Bool) (x : β) : List β → List β
  | [] => [x]
  | y :: ys => if lt x y then x :: y :: ys else y :: stableInsert lt x ys

def stableSortAux {β : Type} (lt : β → β → Bool) (acc : List β) : List β → List β
  | [] => acc
  | x :: xs => stableSortAux lt (stableInsert lt x acc) xs

def stableSortBy {β : Type} (lt : β → β → Bool) (l : List β) : List β :=
  stableSortAux lt [] l

/-- Comparator of the `Map` branch, lifted to entries decorated with
their property-key text and serialized value: `(a, b) => a[0] < b[0] ? -1 : 1`
reads only the raw keys. -/
def entryLt (a b : JVal × String × Option Json) : Bool := jsLt a.1 b.1

/-- Default comparator of the `Set` branch, on elements decorated with
their serialized form: compares `ToString` images. -/
def setElemLt (a b : JVal × Option Json) : Bool := strLt (toJsString a.1) (toJsString b.1)

/-- `Object.fromEntries` property assignment: a repeated key overwrites
the value in place, a new key is appended. -/
def objSetField (acc : List (String × Option Json)) (k : String) (v : Option Json) :
    List (String × Option Json) :=
  match acc with
  | [] => [(k, v)]
  | (k1, v1) :: r => if k1 == k then (k1, v) :: r else (k1, v1) :: objSetField r k v

def fromEntriesCollapse (l : List (String × Option Json)) : List (String × Option Json) :=
  l.foldl (fun acc e => objSetField acc e.1 e.2) []

/-- `JSON.stringify` drops object properties whose value serializes to
`undefined`. -/
def dropAbsent : List (String × Option Json) → List (String × Json)
  | [] => []
  | (k, some j) :: r => (k, j) :: dropAbsent r
  | (_, none) :: r => dropAbsent r

mutual
/-- `JSON.stringify(·, replacer)` of `smartKeyNormalizer`, as a tree
translation (`none` = serializes to `undefined`).  The `Map` branch of
the source sorts the raw entries, builds a plain object with
`Object.fromEntries` (whose property keys are the `ToString` images of
the raw keys), and `JSON.stringify` then recursively serializes the
values; the model serializes each entry next to its raw key and its
property-key text first and sorts the decorated list with the same
comparator on the raw keys — the same output, since serialization of an
entry does not depend on its position.  Likewise for the `Set` branch
and its `ToString`-comparator sort. -/
def jsonOfKVal : JVal → Option Json
  | .vundefined => none
  | .token _ => none
  | .vnull => some .null
  | .bool b => some (.bool b)
  | .num n => some (.num n)
  | .str s => some (.str s)
  | .bigint n => some (.str (String.mk (printInt n)))
  | .date iso => some (.str iso)
  | .uint8array bs => some (.arr (bs.map fun b => Json.num (Int.ofNat b)))
  | .arraybuffer bs => some (.arr (bs.map fun b => Json.num (Int.ofNat b)))
  | .map es =>
    some (.obj (dropAbsent (fromEntriesCollapse
      ((stableSortBy entryLt (normEntries es)).map fun e => (e.2.1, e.2.2)))))
  | .set xs =>
    some (.arr ((stableSortBy setElemLt (normElems xs)).map fun e => e.2.getD .null))
  | .urlsearchparams _ => some (.obj [])
  | .regexp s f => some (.str ("/" ++ s ++ "/" ++ f))
  | .arr xs => some (.arr (jsonOfKList xs))
  | .obj fs => some (.obj (jsonOfKFields fs))
/-- Array elements: `undefined` becomes `null`. -/
def jsonOfKList : List JVal → List Json
  | [] => []
  | x :: xs => (jsonOfKVal x).getD .null :: jsonOfKList xs
/-- Object properties: `undefined` values are dropped. -/
def jsonOfKFields : List (String × JVal) → List (String × Json)
  | [] => []
  | (k, v) :: fs =>
    match jsonOfKVal v with
    | none => jsonOfKFields fs
    | some j => (k, j) :: jsonOfKFields fs
/-- `Map` entries decorated as (raw key, property-key text, serialized value). -/
def normEntries : List (JVal × JVal) → List (JVal × String × Option Json)
  | [] => []
  | (k, v) :: es => (k, toJsString k, jsonOfKVal v) :: normEntries es
/-- `Set` elements decorated as (raw element, serialized form). -/
def normElems : List JVal → List (JVal × Option Json)
  | [] => []
  | x :: xs => (x, jsonOfKVal x) :: normElems xs
end

/-! ## Rendering JSON text (the exact `JSON.stringify` output) -/

/-- `QuoteJSONString` escaping of one character. -/
def escapeChar (c : Char) : List Char :=
  if c = '"' then ['\\', '"']
  else if c = '\\' then ['\\', '\\']
  else if c.toNat = 10 then ['\\', 'n']
  else if c.toNat = 13 then ['\\', 'r']
  else if c.toNat = 9 then ['\\', 't']
  else if c.toNat = 8 then ['\\', 'b']
  else if c.toNat = 12 then ['\\', 'f']
  else if c.toNat < 32 then
    ['\\', 'u', '0', '0', Nat.digitChar (c.toNat / 16), Nat.digitChar (c.toNat % 16)]
  else [c]

def escapeChars : List Char → List Char
  | [] => []
  | c :: cs => escapeChar c ++ escapeChars cs

def renderString (s : String) : List Char :=
  '"' :: (escapeChars s.data ++ ['"'])

mutual
/-- The text `JSON.stringify` produces for a tree (no spacing). -/
def renderJson : Json → List Char
  | .null => "null".data
  | .bool true => "true".data
  | .bool false => "false".data
  | .num n => printInt n
  | .str s => renderString s
  | .arr xs => '[' :: (renderArr xs ++ [']'])
  | .obj fs => '\x7b' :: (renderObj fs ++ ['\x7d'])
def renderArr : List Json → List Char
  | [] => []
  | [x] => renderJson x
  | x :: xs => renderJson x ++ ',' :: renderArr xs
def renderObj : List (String × Json) → List Char
  | [] => []
  | [(k, v)] => renderString k ++ ':' :: renderJson v
  | (k, v) :: fs => renderString k ++ ':' :: renderJson v ++ ',' :: renderObj fs
end

def Json.render (j : Json) : String := String.mk (renderJson j)

/-- `smartKeyNormalizer()(args)`: the argument tuple is an array, so the
top level always serializes, and the result is the rendered JSON text. -/
def smartNormalize (args : List JVal) : String :=
  (Json.arr (jsonOfKList args)).render

/-! ## The concurrent-burst scenario from the specification

Four calls `[f(1), f(1), f("a"), f("a")]` issued before any settles, then
the two shared promises settle.  (`normalize` can be the identity here:
`Val` is the key type and two argument values normalize equally iff they
are equal, as `smartKeyNormalizer` behaves on these primitives.) -/

def scenarioEnv : AsyncEnv Val Val Unit :=
  { normalize := id, fnOut := fun v => .ok v, opts := {} }

def scenarioCall1 : AsyncState Val Val Unit × Nat :=
  asyncCall scenarioEnv AsyncState.init (Val.num 1)

def scenarioCall2 : AsyncState Val Val Unit × Nat :=
  asyncCall scenarioEnv scenarioCall1.1 (Val.num 1)

def scenarioCall3 : AsyncState Val Val Unit × Nat :=
  asyncCall scenarioEnv scenarioCall2.1 (Val.str "a")

def scenarioCall4 : AsyncState Val Val Unit × Nat :=
  asyncCall scenarioEnv scenarioCall3.1 (Val.str "a")

def scenarioFinal : AsyncState Val Val Unit :=
  asyncSettle scenarioEnv (asyncSettle scenarioEnv scenarioCall4.1 scenarioCall1.2)
    scenarioCall3.2

/-- A tiny concrete environment used to witness the deduplication
theorem on explicit inputs. -/
def dedupEnv : AsyncEnv Nat Nat Unit :=
  { normalize := id, fnOut := fun n => .ok (.num n), opts := {} }

/-- A composite value exercising every reconstructed type at once, used
to witness the round-trip theorem on an explicit input. -/
def sampleComposite : JVal :=
  JVal.map [(JVal.str "k", JVal.arr [JVal.bigint 7, JVal.uint8array [1, 255],
    JVal.set [JVal.num 1, JVal.str "1"], JVal.regexp "^a$" "g", JVal.arraybuffer [0]])]
/-! # Theorems -/

/-! ## Association list lemmas -/

theorem alookup_ainsert_self {κ β : Type} [DecidableEq κ] (l : List (κ × β)) (k : κ) (v : β) :
    alookup (ainsert l k v) k = some v := by
  simp [ainsert, alookup]

theorem alookup_ainsert_ne {κ β : Type} [DecidableEq κ] (l : List (κ × β)) (k k0 : κ) (v : β)
    (h : k ≠ k0) : alookup (ainsert l k v) k0 = alookup (aerase l k) k0 := by
  simp [ainsert, alookup, h]

theorem alookup_aerase_self {κ β : Type} [DecidableEq κ] (l : List (κ × β)) (k : κ) :
    alookup (aerase l k) k = none := by
  induction l with
  | nil => rfl
  | cons hd tl ih =>
    obtain ⟨k1, v1⟩ := hd
    by_cases h : k1 = k <;> simp [aerase, alookup, h, ih]

/-! ## Decimal codec lemmas -/

theorem charToDigit_digitChar : ∀ d, d < 10 → charToDigit (Nat.digitChar d) = d := by
  decide

theorem digitChar_ne_minus : ∀ d, d < 10 → Nat.digitChar d ≠ '-' := by
  decide

theorem valOfChars_append_singleton (l : List Char) (c : Char) :
    valOfChars (l ++ [c]) = valOfChars l * 10 + charToDigit c := by
  simp [valOfChars, List.foldl_append]

theorem valOfChars_printNatAux : ∀ fuel n, n < fuel → valOfChars (printNatAux fuel n) = n := by
  intro fuel
  induction fuel with
  | zero => intro n h; omega
  | succ fuel ih =>
    intro n h
    by_cases hn : n < 10
    · simp [printNatAux, hn, valOfChars, charToDigit_digitChar n hn]
    · have hpos : 0 < n := by omega
      have hdiv : n / 10 < n := Nat.div_lt_self hpos (by omega)
      rw [printNatAux, if_neg hn, valOfChars_append_singleton, ih (n / 10) (by omega),
        charToDigit_digitChar (n % 10) (by omega)]
      omega

theorem valOfChars_printNat (n : Nat) : valOfChars (printNat n) = n :=
  valOfChars_printNatAux (n + 1) n (Nat.lt_succ_self n)

theorem printNatAux_mem_ne_minus :
    ∀ fuel n c, c ∈ printNatAux fuel n → c ≠ '-' := by
  intro fuel
  induction fuel with
  | zero => intro n c h; simp [printNatAux] at h
  | succ fuel ih =>
    intro n c h
    by_cases hn : n < 10
    · simp [printNatAux, hn] at h
      subst h
      exact digitChar_ne_minus n hn
    · rw [printNatAux, if_neg hn] at h
      rcases List.mem_append.mp h with h1 | h2
      · exact ih (n / 10) c h1
      · simp at h2
        subst h2
        exact digitChar_ne_minus (n % 10) (by omega)

theorem printNat_ne_nil (n : Nat) : printNat n ≠ [] := by
  unfold printNat printNatAux
  by_cases hn : n < 10 <;> simp [hn]

theorem parseInt_printNat (n : Nat) : parseInt (printNat n) = (n : Int) := by
  rcases hl : printNat n with _ | ⟨c, rest⟩
  · exact absurd hl (printNat_ne_nil n)
  · have hc : c ≠ '-' := by
      apply printNatAux_mem_ne_minus (n + 1) n
      rw [← printNat, hl]
      exact List.mem_cons_self c rest
    have := valOfChars_printNat n
    rw [hl] at this
    simp only [parseInt]
    split
    · rename_i heq
      rw [List.cons.injEq] at heq
      exact absurd heq.1 hc
    · rw [this]

theorem parseInt_printInt (n : Int) : parseInt (printInt n) = n := by
  by_cases hn : n < 0
  · simp only [printInt, if_pos hn, parseInt, valOfChars_printNat]
    omega
  · simp only [printInt, if_neg hn, parseInt_printNat]
    omega

/-! ## Claims about the synchronous core -/

/-- Claim C1: for every wrapped function, argument tuple and cache, if
`cache.get(args)` returns a non-nullish value `r` and `shouldRecalculate`
(default false) returns false for `r` and the arguments, then the wrapper
returned by `memoize` returns `r` unchanged, never invokes `fn` for that
call, and performs no cache mutation. -/
theorem memoize_cache_hit_fast_path {α ε : Type} (o : MemoizeOptions α) (args : α)
    (fn : Except ε Val) (r : Val)
    (hnn : r.nonNullish = true)
    (hrec : runShouldRecalculate o r args = false) :
    (memoizeCall r o args fn).ret = .ok r ∧
    (memoizeCall r o args fn).fnInvoked = false ∧
    (memoizeCall r o args fn).ops = [] := by
  simp [memoizeCall, hnn, hrec]

theorem memoize_cache_hit_fast_path_witness :
    (Val.num 3).nonNullish = true ∧
    runShouldRecalculate ({} : MemoizeOptions Unit) (Val.num 3) () = false ∧
    ((memoizeCall (Val.num 3) ({} : MemoizeOptions Unit) () (.ok (Val.num 9) : Except Unit Val)).ret
        = .ok (Val.num 3) ∧
      (memoizeCall (Val.num 3) ({} : MemoizeOptions Unit) () (.ok (Val.num 9) : Except Unit Val)).fnInvoked
        = false ∧
      (memoizeCall (Val.num 3) ({} : MemoizeOptions Unit) () (.ok (Val.num 9) : Except Unit Val)).ops
        = []) :=
  ⟨rfl, rfl, memoize_cache_hit_fast_path {} () (.ok (Val.num 9)) (Val.num 3) rfl rfl⟩

/-- Claim C2: whenever a `memoize`d call reaches the compute step and
`fn` produces `newResult` without throwing, the wrapper performs
`cache.set(args, newResult)` iff `newResult` is non-nullish and
`shouldCache` (default true) approves it; in every other case it performs
`cache.delete(args)` instead (and nothing else); and it returns
`newResult`. -/
theorem memoize_admission_policy {α ε : Type} (o : MemoizeOptions α) (args : α)
    (g : Val) (v : Val)
    (hmiss : (g.nonNullish && !(runShouldRecalculate o g args)) = false) :
    (memoizeCall g o args (.ok v : Except ε Val)).ret = .ok v ∧
    (memoizeCall g o args (.ok v : Except ε Val)).fnInvoked = true ∧
    ((memoizeCall g o args (.ok v : Except ε Val)).ops = [CacheOp.set v] ↔
      (v.nonNullish = true ∧ runShouldCache o v args = true)) ∧
    (¬(v.nonNullish = true ∧ runShouldCache o v args = true) →
      (memoizeCall g o args (.ok v : Except ε Val)).ops = [CacheOp.del]) := by
  by_cases hc : (v.nonNullish && runShouldCache o v args) = true
  · rw [Bool.and_eq_true] at hc
    simp [memoizeCall, hmiss, hc]
  · have hc2 : (v.nonNullish && runShouldCache o v args) = false := by
      cases h : (v.nonNullish && runShouldCache o v args) <;> simp_all
    have hne : ¬(v.nonNullish = true ∧ runShouldCache o v args = true) := by
      rw [← Bool.and_eq_true]
      simp [hc2]
    simp [memoizeCall, hmiss, hc2, hne]

theorem memoize_admission_policy_witness :
    ((Val.vnull.nonNullish && !(runShouldRecalculate ({} : MemoizeOptions Unit) Val.vnull ())) = false) ∧
    ((memoizeCall Val.vnull ({} : MemoizeOptions Unit) () (.ok (Val.str "ab") : Except Unit Val)).ret
        = .ok (Val.str "ab") ∧
      (memoizeCall Val.vnull ({} : MemoizeOptions Unit) () (.ok (Val.str "ab") : Except Unit Val)).fnInvoked
        = true ∧
      ((memoizeCall Val.vnull ({} : MemoizeOptions Unit) () (.ok (Val.str "ab") : Except Unit Val)).ops
          = [CacheOp.set (Val.str "ab")] ↔
        ((Val.str "ab").nonNullish = true ∧ runShouldCache ({} : MemoizeOptions Unit) (Val.str "ab") () = true)) ∧
      (¬((Val.str "ab").nonNullish = true ∧ runShouldCache ({} : MemoizeOptions Unit) (Val.str "ab") () = true) →
        (memoizeCall Val.vnull ({} : MemoizeOptions Unit) () (.ok (Val.str "ab") : Except Unit Val)).ops
          = [CacheOp.del])) :=
  ⟨rfl, memoize_admission_policy {} () Val.vnull (Val.str "ab") rfl⟩

/-- Claim C5: both cores treat the two nullish forms a cache `get` may
report — explicit `null` and missing/`undefined` — identically: either
one makes the whole call behave the same, and in both cases the wrapped
function is invoked (cache miss). -/
theorem nullish_get_forms_identical {α ε : Type} (o : MemoizeOptions α) (args : α)
    (fn : Except ε Val) :
    memoizeCall Val.vnull o args fn = memoizeCall Val.vundefined o args fn ∧
    (memoizeCall Val.vnull o args fn).fnInvoked = true ∧
    memoizeAsyncBody Val.vnull o args fn = memoizeAsyncBody Val.vundefined o args fn ∧
    (memoizeAsyncBody Val.vnull o args fn).fnInvoked = true := by
  cases fn with
  | error e => simp [memoizeCall, memoizeAsyncBody, Val.nonNullish]
  | ok v =>
    refine ⟨rfl, ?_, rfl, ?_⟩ <;>
      · simp only [memoizeCall, memoizeAsyncBody]
        norm_num [Val.nonNullish]
        split <;> simp

/-! ## Helper lemmas about the async body -/

theorem memoizeAsyncBody_promiseCacheDeleted {α ε : Type} (g : Val) (o : MemoizeOptions α)
    (args : α) (fn : Except ε Val) :
    (memoizeAsyncBody g o args fn).promiseCacheDeleted = true := by
  by_cases h : (g.nonNullish && !(runShouldRecalculate o g args)) = true
  · simp [memoizeAsyncBody, h]
  · have h2 : (g.nonNullish && !(runShouldRecalculate o g args)) = false := by
      cases hb : (g.nonNullish && !(runShouldRecalculate o g args)) <;> simp_all
    cases fn with
    | error e => simp [memoizeAsyncBody, h2]
    | ok v =>
      simp only [memoizeAsyncBody, h2, Bool.false_eq_true, if_false]
      split <;> rfl

theorem memoizeAsyncBody_error {α ε : Type} (o : MemoizeOptions α) (args : α) (g : Val)
    (e : ε) (h : (g.nonNullish && !(runShouldRecalculate o g args)) = false) :
    memoizeAsyncBody g o args (.error e) =
      { ret := .error e, fnInvoked := true, ops := [], promiseCacheDeleted := true } := by
  simp [memoizeAsyncBody, h]

theorem memoizeAsyncBody_fnInvoked_of_miss {α ε : Type} (o : MemoizeOptions α) (args : α)
    (g : Val) (fn : Except ε Val)
    (h : (g.nonNullish && !(runShouldRecalculate o g args)) = false) :
    (memoizeAsyncBody g o args fn).fnInvoked = true := by
  cases fn with
  | error e => simp [memoizeAsyncBody, h]
  | ok v =>
    simp only [memoizeAsyncBody, h, Bool.false_eq_true, if_false]
    split <;> rfl

/-! ## Claims about error handling and deduplication -/

/-- Claim C4: a thrown error (sync `memoize`) or rejection (`memoizeAsync`)
propagates to the caller unchanged with no `cache.set` — indeed no cache
mutation at all, so the result cache is left exactly as it was; and on the
async path the promise-cache entry for the key is deleted once the body
settles, on failure and on success alike. -/
theorem error_propagation_never_cached :
    (∀ (α ε : Type) (o : MemoizeOptions α) (args : α) (g : Val) (e : ε),
      (g.nonNullish && !(runShouldRecalculate o g args)) = false →
      memoizeCall g o args (.error e) =
        { ret := .error e, fnInvoked := true, ops := [] }) ∧
    (∀ (α ε : Type) (o : MemoizeOptions α) (args : α) (g : Val) (e : ε),
      (g.nonNullish && !(runShouldRecalculate o g args)) = false →
      memoizeAsyncBody g o args (.error e) =
        { ret := .error e, fnInvoked := true, ops := [], promiseCacheDeleted := true }) ∧
    (∀ (α κ ε : Type) [DecidableEq κ] (env : AsyncEnv α κ ε) (s : AsyncState α κ ε)
      (p : Nat) (args : α) (g : Val) (e : ε),
      alookup s.pending p = some (args, g) →
      (g.nonNullish && !(runShouldRecalculate env.opts g args)) = false →
      env.fnOut args = .error e →
      (asyncSettle env s p).resultCache = s.resultCache ∧
      alookup (asyncSettle env s p).promiseCache (env.normalize args) = none ∧
      alookup (asyncSettle env s p).settled p = some (.error e)) ∧
    (∀ (α κ ε : Type) [DecidableEq κ] (env : AsyncEnv α κ ε) (s : AsyncState α κ ε)
      (p : Nat) (args : α) (g : Val),
      alookup s.pending p = some (args, g) →
      alookup (asyncSettle env s p).promiseCache (env.normalize args) = none) := by
  refine ⟨?_, ?_, ?_, ?_⟩
  · intro α ε o args g e h
    simp [memoizeCall, h]
  · intro α ε o args g e h
    exact memoizeAsyncBody_error o args g e h
  · intro α κ ε inst env s p args g e hpend hbranch hfn
    simp only [asyncSettle, hpend]
    rw [hfn, memoizeAsyncBody_error env.opts args g e hbranch]
    refine ⟨rfl, ?_, ?_⟩
    · simp [alookup_aerase_self]
    · simp [alookup]
  · intro α κ ε inst env s p args g hpend
    simp only [asyncSettle, hpend]
    rw [memoizeAsyncBody_promiseCacheDeleted g env.opts args (env.fnOut args)]
    simp [alookup_aerase_self]

theorem error_propagation_never_cached_witness :
    (memoizeCall Val.vundefined ({} : MemoizeOptions Unit) () (.error "boom" : Except String Val) =
      { ret := .error "boom", fnInvoked := true, ops := [] }) ∧
    (memoizeAsyncBody Val.vundefined ({} : MemoizeOptions Unit) () (.error "boom" : Except String Val) =
      { ret := .error "boom", fnInvoked := true, ops := [], promiseCacheDeleted := true }) ∧
    ((asyncSettle
        { normalize := id, fnOut := fun _ => .error "boom", opts := {} : AsyncEnv Nat Nat String }
        { promiseCache := [(7, 0)], resultCache := [], pending := [(0, 7, Val.vundefined)],
          settled := [], fnLog := [], nextId := 1 } 0).resultCache = [] ∧
      alookup (asyncSettle
        { normalize := id, fnOut := fun _ => .error "boom", opts := {} : AsyncEnv Nat Nat String }
        { promiseCache := [(7, 0)], resultCache := [], pending := [(0, 7, Val.vundefined)],
          settled := [], fnLog := [], nextId := 1 } 0).promiseCache 7 = none ∧
      alookup (asyncSettle
        { normalize := id, fnOut := fun _ => .error "boom", opts := {} : AsyncEnv Nat Nat String }
        { promiseCache := [(7, 0)], resultCache := [], pending := [(0, 7, Val.vundefined)],
          settled := [], fnLog := [], nextId := 1 } 0).settled 0 = some (.error "boom")) :=
  ⟨error_propagation_never_cached.1 Unit String {} () Val.vundefined "boom" rfl,
    error_propagation_never_cached.2.1 Unit String {} () Val.vundefined "boom" rfl,
    error_propagation_never_cached.2.2.1 Nat Nat String
      { normalize := id, fnOut := fun _ => .error "boom", opts := {} }
      { promiseCache := [(7, 0)], resultCache := [], pending := [(0, 7, Val.vundefined)],
        settled := [], fnLog := [], nextId := 1 } 0 7 Val.vundefined "boom" rfl rfl rfl⟩

/-- Claim C3: while a pending computation for a key has not settled, every
further `memoizeAsync` call whose arguments normalize to the same key
receives the very same pending promise and changes nothing — no new
computation starts and the wrapped function is not invoked; when the
shared promise settles, the underlying function runs exactly once for that
key, and all its callers — holding the same promise — observe the one
shared outcome. -/
theorem memoizeAsync_concurrent_dedup {α κ ε : Type} [DecidableEq κ]
    (env : AsyncEnv α κ ε) (s : AsyncState α κ ε) (args : α)
    (hfresh : alookup s.promiseCache (env.normalize args) = none)
    (hmiss : alookup s.resultCache (env.normalize args) = none) :
    (∀ args2, env.normalize args2 = env.normalize args →
      asyncCall env (asyncCall env s args).1 args2 =
        ((asyncCall env s args).1, (asyncCall env s args).2)) ∧
    (asyncCall env s args).1.fnLog = s.fnLog ∧
    (asyncSettle env (asyncCall env s args).1 (asyncCall env s args).2).fnLog =
      args :: s.fnLog ∧
    alookup (asyncSettle env (asyncCall env s args).1 (asyncCall env s args).2).settled
        (asyncCall env s args).2 =
      some (memoizeAsyncBody Val.vundefined env.opts args (env.fnOut args)).ret := by
  have hget : resultGet s.resultCache (env.normalize args) = Val.vundefined := by
    simp [resultGet, hmiss]
  have hcall : asyncCall env s args =
      ({ s with
          promiseCache := ainsert s.promiseCache (env.normalize args) s.nextId,
          pending := (s.nextId, args, Val.vundefined) :: s.pending,
          nextId := s.nextId + 1 }, s.nextId) := by
    simp only [asyncCall, hfresh, hget]
  have hbranch :
      (Val.vundefined.nonNullish && !(runShouldRecalculate env.opts Val.vundefined args)) = false := rfl
  rw [hcall]
  refine ⟨?_, rfl, ?_, ?_⟩
  · intro args2 hk
    simp only [asyncCall, hk, alookup_ainsert_self]
  · simp only [asyncSettle, alookup, if_pos rfl,
      memoizeAsyncBody_fnInvoked_of_miss env.opts args Val.vundefined (env.fnOut args) hbranch,
      if_true]
  · simp [asyncSettle, alookup]

theorem memoizeAsync_concurrent_dedup_witness :
    (asyncCall dedupEnv (asyncCall dedupEnv AsyncState.init 1).1 1 =
      ((asyncCall dedupEnv AsyncState.init 1).1, (asyncCall dedupEnv AsyncState.init 1).2)) ∧
    (asyncSettle dedupEnv (asyncCall dedupEnv AsyncState.init 1).1
        (asyncCall dedupEnv AsyncState.init 1).2).fnLog = [1] :=
  ⟨(memoizeAsync_concurrent_dedup dedupEnv AsyncState.init 1 rfl rfl).1 1 rfl,
    (memoizeAsync_concurrent_dedup dedupEnv AsyncState.init 1 rfl rfl).2.2.1⟩

/-- The burst of the spec's *concurrent dedup* test: duplicate concurrent
calls share one promise per distinct key, the counter reaches exactly 2,
and the shared promises resolve to the two expected values. -/
theorem async_scenario_four_calls :
    scenarioCall2.2 = scenarioCall1.2 ∧
    scenarioCall4.2 = scenarioCall3.2 ∧
    scenarioCall1.2 ≠ scenarioCall3.2 ∧
    scenarioFinal.fnLog.length = 2 ∧
    alookup scenarioFinal.settled scenarioCall1.2 = some (.ok (Val.num 1)) ∧
    alookup scenarioFinal.settled scenarioCall3.2 = some (.ok (Val.str "a")) :=
  ⟨rfl, rfl, by decide, rfl, rfl, rfl⟩

/-! ## Claims about the smart key normalizer -/

/-- Claim C9: the default smart key normalizer collapses distinct-typed
values with the same element content onto one key string: a `Uint8Array`
of bytes 1,2, an `ArrayBuffer` with bytes 1,2, the `Set` of 1 and 2, and
the plain array `[1,2]` all normalize to the identical string (so a
memoized function shares one cache entry across them). -/
theorem normalizer_collapses_same_content_types :
    smartNormalize [JVal.uint8array [1, 2]] = smartNormalize [JVal.arraybuffer [1, 2]] ∧
    smartNormalize [JVal.uint8array [1, 2]] = smartNormalize [JVal.set [JVal.num 1, JVal.num 2]] ∧
    smartNormalize [JVal.uint8array [1, 2]] = smartNormalize [JVal.arr [JVal.num 1, JVal.num 2]] ∧
    smartNormalize [JVal.uint8array [1, 2]] = "[[1,2]]" :=
  ⟨rfl, rfl, rfl, rfl⟩

/-- Counterexample to claim C8: two *distinct* unserializable tokens
normalize to the very same string — `JSON.stringify` serializes a symbol
or function like `undefined`, which becomes `null` inside the argument
array, erasing the token's identity. -/
theorem normalizer_token_collision :
    JVal.token 0 ≠ JVal.token 1 ∧
    smartNormalize [JVal.token 0] = smartNormalize [JVal.token 1] :=
  ⟨by simp, rfl⟩

/-- Claim C8 as amended: under the default smart key normalizer an
unsupported/non-serializable value does *not* keep a per-process identity:
it normalizes to the `null` placeholder, so any two tokens — equal or
distinct — produce the same string in the same tuple position. -/
theorem normalizer_tokens_collapse_to_null (a b : Nat) :
    smartNormalize [JVal.token a] = "[null]" ∧
    smartNormalize [JVal.token a] = smartNormalize [JVal.token b] :=
  ⟨rfl, rfl⟩

/-! ## Order lemmas for the normalizer's sorts -/

theorem char_eq_of_toNat_eq {a b : Char} (h : a.toNat = b.toNat) : a = b :=
  Char.ext (UInt32.ext h)

theorem charListLt_asymm : ∀ a b, charListLt a b = true → charListLt b a = false := by
  intro a
  induction a with
  | nil => intro b h; cases b <;> simp_all [charListLt]
  | cons x xs ih =>
    intro b h
    cases b with
    | nil => simp_all [charListLt]
    | cons y ys =>
      simp only [charListLt] at h ⊢
      by_cases h1 : x.toNat < y.toNat
      · have h2 : ¬y.toNat < x.toNat := by omega
        simp [h1, h2]
      · by_cases h2 : y.toNat < x.toNat
        · simp [h1, h2] at h
        · simp only [h1, h2, if_false] at h ⊢
          exact ih ys h

theorem charListLt_trans :
    ∀ a b c, charListLt a b = true → charListLt b c = true → charListLt a c = true := by
  intro a
  induction a with
  | nil =>
    intro b c hab hbc
    cases b <;> cases c <;> simp_all [charListLt]
  | cons x xs ih =>
    intro b c hab hbc
    cases b with
    | nil => simp_all [charListLt]
    | cons y ys =>
      cases c with
      | nil => simp_all [charListLt]
      | cons z zs =>
        simp only [charListLt] at hab hbc ⊢
        by_cases hxy : x.toNat < y.toNat
        · by_cases hyz : y.toNat < z.toNat
          · rw [if_pos (show x.toNat < z.toNat by omega)]
          · by_cases hzy : z.toNat < y.toNat
            · rw [if_neg hyz, if_pos hzy] at hbc
              exact absurd hbc (by simp)
            · rw [if_pos (show x.toNat < z.toNat by omega)]
        · by_cases hyx : y.toNat < x.toNat
          · rw [if_neg hxy, if_pos hyx] at hab
            exact absurd hab (by simp)
          · rw [if_neg hxy, if_neg hyx] at hab
            by_cases hyz : y.toNat < z.toNat
            · rw [if_pos (show x.toNat < z.toNat by omega)]
            · by_cases hzy : z.toNat < y.toNat
              · rw [if_neg hyz, if_pos hzy] at hbc
                exact absurd hbc (by simp)
              · rw [if_neg hyz, if_neg hzy] at hbc
                rw [if_neg (show ¬x.toNat < z.toNat by omega),
                  if_neg (show ¬z.toNat < x.toNat by omega)]
                exact ih ys zs hab hbc

theorem charListLt_connex :
    ∀ a b, a ≠ b → charListLt a b = true ∨ charListLt b a = true := by
  intro a
  induction a with
  | nil =>
    intro b h
    cases b with
    | nil => exact absurd rfl h
    | cons y ys => left; rfl
  | cons x xs ih =>
    intro b h
    cases b with
    | nil => right; rfl
    | cons y ys =>
      simp only [charListLt]
      by_cases h1 : x.toNat < y.toNat
      · left; simp [h1]
      · by_cases h2 : y.toNat < x.toNat
        · right; simp [h1, h2]
        · have hxy : x = y := char_eq_of_toNat_eq (by omega)
          subst hxy
          have hne : xs ≠ ys := by
            intro hc
            exact h (by rw [hc])
          simp only [h1, if_false]
          exact ih ys hne

theorem strLt_asymm {a b : String} (h : strLt a b = true) : strLt b a = false :=
  charListLt_asymm a.data b.data h

theorem strLt_trans {a b c : String} (hab : strLt a b = true) (hbc : strLt b c = true) :
    strLt a c = true :=
  charListLt_trans a.data b.data c.data hab hbc

theorem strLt_connex {a b : String} (h : a ≠ b) : strLt a b = true ∨ strLt b a = true := by
  apply charListLt_connex
  intro hc
  apply h
  cases a
  cases b
  simp_all

/-! ## Stable sort lemmas -/

theorem stableInsert_perm {β : Type} (lt : β → β → Bool) (x : β) :
    ∀ l : List β, (stableInsert lt x l).Perm (x :: l) := by
  intro l
  induction l with
  | nil => simp [stableInsert]
  | cons y ys ih =>
    simp only [stableInsert]
    split
    · exact List.Perm.refl _
    · exact (ih.cons y).trans (List.Perm.swap x y ys)

theorem mem_stableInsert {β : Type} (lt : β → β → Bool) (x z : β) (l : List β) :
    z ∈ stableInsert lt x l ↔ z = x ∨ z ∈ l := by
  rw [(stableInsert_perm lt x l).mem_iff]
  simp

theorem stableSortAux_perm {β : Type} (lt : β → β → Bool) :
    ∀ (l acc : List β), (stableSortAux lt acc l).Perm (acc ++ l) := by
  intro l
  induction l with
  | nil => intro acc; simp [stableSortAux]
  | cons x xs ih =>
    intro acc
    exact (ih (stableInsert lt x acc)).trans
      (((stableInsert_perm lt x acc).append_right xs).trans List.perm_middle.symm)

theorem stableSortBy_perm {β : Type} (lt : β → β → Bool) (l : List β) :
    (stableSortBy lt l).Perm l :=
  stableSortAux_perm lt l []

theorem sorted_stableInsert {β : Type} (key : β → String) (x : β) :
    ∀ l : List β,
      l.Pairwise (fun a b => strLt (key b) (key a) = false) →
      (stableInsert (fun a b => strLt (key a) (key b)) x l).Pairwise
        (fun a b => strLt (key b) (key a) = false) := by
  intro l
  induction l with
  | nil => intro _; simp [stableInsert]
  | cons y ys ih =>
    intro hs
    rw [List.pairwise_cons] at hs
    obtain ⟨hy, hys⟩ := hs
    simp only [stableInsert]
    split
    · rename_i hlt
      rw [List.pairwise_cons]
      refine ⟨?_, List.pairwise_cons.mpr ⟨hy, hys⟩⟩
      intro z hz
      rcases List.mem_cons.mp hz with rfl | hz2
      · exact strLt_asymm hlt
      · cases hzy : strLt (key z) (key x)
        · rfl
        · have h1 : strLt (key z) (key y) = true := strLt_trans hzy hlt
          rw [hy z hz2] at h1
          cases h1
    · rename_i hnlt
      rw [List.pairwise_cons]
      constructor
      · intro z hz
        rcases (mem_stableInsert _ x z ys).mp hz with rfl | hz2
        · simpa using hnlt
        · exact hy z hz2
      · exact ih hys

theorem sorted_stableSortAux {β : Type} (key : β → String) :
    ∀ (l acc : List β),
      acc.Pairwise (fun a b => strLt (key b) (key a) = false) →
      (stableSortAux (fun a b => strLt (key a) (key b)) acc l).Pairwise
        (fun a b => strLt (key b) (key a) = false) := by
  intro l
  induction l with
  | nil => intro acc h; exact h
  | cons x xs ih =>
    intro acc h
    exact ih _ (sorted_stableInsert key x acc h)

theorem sorted_stableSortBy {β : Type} (key : β → String) (l : List β) :
    (stableSortBy (fun a b => strLt (key a) (key b)) l).Pairwise
      (fun a b => strLt (key b) (key a) = false) :=
  sorted_stableSortAux key l [] (List.Pairwise.nil)

theorem sorted_nodup_keys_unique {β : Type} (key : β → String) :
    ∀ l1 l2 : List β, l1.Perm l2 →
      l1.Pairwise (fun a b => strLt (key b) (key a) = false) →
      l2.Pairwise (fun a b => strLt (key b) (key a) = false) →
      (l1.map key).Nodup → l1 = l2 := by
  intro l1
  induction l1 with
  | nil =>
    intro l2 hp _ _ _
    exact (hp.symm.eq_nil).symm
  | cons x t1 ih =>
    intro l2 hp hs1 hs2 hnd
    cases l2 with
    | nil => exact absurd hp.eq_nil (by simp)
    | cons y t2 =>
      by_cases hxy : x = y
      · subst hxy
        rw [List.pairwise_cons] at hs1 hs2
        rw [List.map_cons, List.nodup_cons] at hnd
        rw [ih t2 hp.cons_inv hs1.2 hs2.2 hnd.2]
      · exfalso
        have hxmem : x ∈ y :: t2 := hp.mem_iff.mp (List.mem_cons_self x t1)
        have hx2 : x ∈ t2 := by
          rcases List.mem_cons.mp hxmem with h | h
          · exact absurd h hxy
          · exact h
        have hymem : y ∈ x :: t1 := hp.mem_iff.mpr (List.mem_cons_self y t2)
        have hy1 : y ∈ t1 := by
          rcases List.mem_cons.mp hymem with h | h
          · exact absurd h.symm hxy
          · exact h
        have hr1 : strLt (key y) (key x) = false :=
          (List.pairwise_cons.mp hs1).1 y hy1
        have hr2 : strLt (key x) (key y) = false :=
          (List.pairwise_cons.mp hs2).1 x hx2
        have hkeq : key x = key y := by
          by_contra hne
          rcases strLt_connex hne with h | h
          · rw [h] at hr2; cases hr2
          · rw [h] at hr1; cases hr1
        rw [List.map_cons, List.nodup_cons] at hnd
        exact hnd.1 (by
          rw [hkeq]
          exact List.mem_map_of_mem key hy1)

theorem stableSortBy_key_perm_eq {β : Type} (key : β → String) (l1 l2 : List β)
    (hp : l1.Perm l2) (hnd : (l1.map key).Nodup) :
    stableSortBy (fun a b => strLt (key a) (key b)) l1 =
      stableSortBy (fun a b => strLt (key a) (key b)) l2 := by
  apply sorted_nodup_keys_unique key
  · exact (stableSortBy_perm _ l1).trans (hp.trans (stableSortBy_perm _ l2).symm)
  · exact sorted_stableSortBy key l1
  · exact sorted_stableSortBy key l2
  · exact ((stableSortBy_perm _ l1).map key).nodup_iff.mpr hnd

theorem stableInsert_congr {β : Type} (lt lt2 : β → β → Bool) (x : β) :
    ∀ l : List β, (∀ b ∈ l, lt x b = lt2 x b) →
      stableInsert lt x l = stableInsert lt2 x l := by
  intro l
  induction l with
  | nil => intro _; rfl
  | cons y ys ih =>
    intro h
    simp only [stableInsert]
    rw [h y (List.mem_cons_self y ys)]
    split
    · rfl
    · rw [ih fun b hb => h b (List.mem_cons_of_mem y hb)]

theorem stableSortAux_congr {β : Type} (lt lt2 : β → β → Bool) :
    ∀ (l acc : List β),
      (∀ x ∈ l, ∀ b ∈ acc, lt x b = lt2 x b) →
      (∀ x ∈ l, ∀ b ∈ l, lt x b = lt2 x b) →
      stableSortAux lt acc l = stableSortAux lt2 acc l := by
  intro l
  induction l with
  | nil => intro acc _ _; rfl
  | cons x xs ih =>
    intro acc hacc hl
    simp only [stableSortAux]
    rw [stableInsert_congr lt lt2 x acc (hacc x (List.mem_cons_self x xs))]
    apply ih
    · intro z hz b hb
      rcases (mem_stableInsert lt2 x b acc).mp hb with hbx | hb2
      · rw [hbx]
        exact hl z (List.mem_cons_of_mem x hz) x (List.mem_cons_self x xs)
      · exact hacc z (List.mem_cons_of_mem x hz) b hb2
    · intro z hz b hb
      exact hl z (List.mem_cons_of_mem x hz) b (List.mem_cons_of_mem x hb)

theorem stableSortBy_congr {β : Type} (lt lt2 : β → β → Bool) (l : List β)
    (h : ∀ x ∈ l, ∀ b ∈ l, lt x b = lt2 x b) :
    stableSortBy lt l = stableSortBy lt2 l :=
  stableSortAux_congr lt lt2 l [] (by intro x _ b hb; cases hb) h

theorem normElems_eq_map (xs : List JVal) :
    normElems xs = xs.map fun x => (x, jsonOfKVal x) := by
  induction xs with
  | nil => rfl
  | cons x xs ih => simp [normElems, ih]

theorem normEntries_eq_map (es : List (JVal × JVal)) :
    normEntries es = es.map fun e => (e.1, toJsString e.1, jsonOfKVal e.2) := by
  induction es with
  | nil => rfl
  | cons e es ih =>
    cases e
    simp [normEntries, ih]

/-- Counterexample to claim C7: two `Set`s with the same elements — the
number 1 and the string "1", distinct under SameValueZero — normalize to
*different* strings for the two insertion orders: the default sort
comparator compares `ToString` images, reports a tie for these two
elements, and the (spec-mandated stable) sort then preserves insertion
order. -/
theorem normalizer_set_order_counterexample :
    ([JVal.num 1, JVal.str "1"] : List JVal).Perm [JVal.str "1", JVal.num 1] ∧
    smartNormalize [JVal.set [JVal.num 1, JVal.str "1"]] ≠
      smartNormalize [JVal.set [JVal.str "1", JVal.num 1]] :=
  ⟨List.Perm.swap (JVal.str "1") (JVal.num 1) [], by decide⟩

/-- Claim C7 as amended: the smart key normalizer emits `Map` entries
sorted by key and `Set` elements sorted, so insertion order does not
affect the key, *provided* the sort can discriminate the members: two
`Map`s with the same key/value pairs and string keys (distinct, as `Map`
keys are) normalize to identical strings, and two `Set`s with the same
elements normalize to identical strings when no two distinct elements
share a `ToString` image (elements with a shared image — e.g. 1 and "1" —
tie in the comparator, and the stable sort preserves their insertion
order). -/
theorem normalizer_sorted_collections :
    (∀ es1 es2 : List (JVal × JVal), es1.Perm es2 →
      (∀ e ∈ es1, ∃ s, e.1 = JVal.str s) →
      (es1.map fun e => toJsString e.1).Nodup →
      smartNormalize [JVal.map es1] = smartNormalize [JVal.map es2]) ∧
    (∀ xs ys : List JVal, xs.Perm ys →
      (xs.map toJsString).Nodup →
      smartNormalize [JVal.set xs] = smartNormalize [JVal.set ys]) := by
  constructor
  · intro es1 es2 hperm hstr hnd
    have hstr2 : ∀ e ∈ es2, ∃ s, e.1 = JVal.str s := fun e he => hstr e (hperm.mem_iff.mpr he)
    have hagree : ∀ (es : List (JVal × JVal)), (∀ e ∈ es, ∃ s, e.1 = JVal.str s) →
        ∀ a ∈ normEntries es, ∀ b ∈ normEntries es,
          entryLt a b = strLt (toJsString a.1) (toJsString b.1) := by
      intro es hs a ha b hb
      rw [normEntries_eq_map] at ha hb
      obtain ⟨ea, hea, rfl⟩ := List.mem_map.mp ha
      obtain ⟨eb, heb, rfl⟩ := List.mem_map.mp hb
      obtain ⟨sa, hsa⟩ := hs ea hea
      obtain ⟨sb, hsb⟩ := hs eb heb
      simp [entryLt, hsa, hsb, jsLt, toJsString]
    have hsort : stableSortBy entryLt (normEntries es1) =
        stableSortBy entryLt (normEntries es2) := by
      rw [stableSortBy_congr entryLt
          (fun a b => strLt (toJsString a.1) (toJsString b.1)) _ (hagree es1 hstr),
        stableSortBy_congr entryLt
          (fun a b => strLt (toJsString a.1) (toJsString b.1)) _ (hagree es2 hstr2)]
      apply stableSortBy_key_perm_eq
        (fun e : JVal × String × Option Json => toJsString e.1)
      · rw [normEntries_eq_map, normEntries_eq_map]
        exact hperm.map _
      · rw [normEntries_eq_map, List.map_map]
        simpa [Function.comp] using hnd
    simp only [smartNormalize, jsonOfKList, jsonOfKVal]
    rw [hsort]
  · intro xs ys hperm hnd
    have hsort : stableSortBy setElemLt (normElems xs) =
        stableSortBy setElemLt (normElems ys) := by
      have heq : setElemLt = fun (a b : JVal × Option Json) =>
          strLt (toJsString a.1) (toJsString b.1) := rfl
      rw [heq]
      apply stableSortBy_key_perm_eq (fun e : JVal × Option Json => toJsString e.1)
      · rw [normElems_eq_map, normElems_eq_map]
        exact hperm.map _
      · rw [normElems_eq_map, List.map_map]
        simpa [Function.comp] using hnd
    simp only [smartNormalize, jsonOfKList, jsonOfKVal]
    rw [hsort]

theorem normalizer_sorted_collections_witness :
    smartNormalize [JVal.map [(JVal.str "a", JVal.num 1), (JVal.str "b", JVal.num 2)]] =
      smartNormalize [JVal.map [(JVal.str "b", JVal.num 2), (JVal.str "a", JVal.num 1)]] ∧
    smartNormalize [JVal.set [JVal.num 30, JVal.num 20]] =
      smartNormalize [JVal.set [JVal.num 20, JVal.num 30]] :=
  ⟨normalizer_sorted_collections.1 _ _
      (List.Perm.swap (JVal.str "b", JVal.num 2) (JVal.str "a", JVal.num 1) [])
      (by
        intro e he
        simp only [List.mem_cons, List.not_mem_nil, or_false] at he
        rcases he with rfl | rfl
        · exact ⟨"a", rfl⟩
        · exact ⟨"b", rfl⟩)
      (by decide),
    normalizer_sorted_collections.2 _ _
      (List.Perm.swap (JVal.num 20) (JVal.num 30) []) (by decide)⟩

/-! ## Reserved-tag hijacking in the value serializer -/

theorem jfieldsHas_surviving_field :
    ∀ (fs : List (String × JVal)) (t : String) (v : JVal),
      (t, v) ∈ fs → (replaceVal v).isSome = true →
      jfieldsHas (reviveFields (replaceFields fs)) t = true := by
  intro fs
  induction fs with
  | nil => intro t v hmem _; cases hmem
  | cons f fs ih =>
    intro t v hmem hsome
    obtain ⟨k, w⟩ := f
    rcases List.mem_cons.mp hmem with heq | htail
    · cases heq
      rw [Option.isSome_iff_exists] at hsome
      obtain ⟨j, hj⟩ := hsome
      simp only [replaceFields, hj, reviveFields, jfieldsHas, List.any_cons]
      simp
    · simp only [replaceFields]
      cases hw : replaceVal w with
      | none => exact ih t v htail hsome
      | some j =>
        simp only [reviveFields, jfieldsHas, List.any_cons]
        rw [Bool.or_eq_true]
        right
        exact ih t v htail hsome

theorem reviveStep_obj_no_tags {fs2 gs : List (String × JVal)}
    (h : reviveStep (JVal.obj fs2) = JVal.obj gs) :
    ∀ t ∈ reservedTags, jfieldsHas fs2 t = false := by
  intro t ht
  simp only [reviveStep] at h
  by_cases h1 : jfieldsHas fs2 "$bigint" = true
  · rw [if_pos h1] at h; cases h
  by_cases h2 : jfieldsHas fs2 "$uint8array" = true
  · rw [if_neg h1, if_pos h2] at h; cases h
  by_cases h3 : jfieldsHas fs2 "$arraybuffer" = true
  · rw [if_neg h1, if_neg h2, if_pos h3] at h; cases h
  by_cases h4 : jfieldsHas fs2 "$map" = true
  · rw [if_neg h1, if_neg h2, if_neg h3, if_pos h4] at h; cases h
  by_cases h5 : jfieldsHas fs2 "$set" = true
  · rw [if_neg h1, if_neg h2, if_neg h3, if_neg h4, if_pos h5] at h; cases h
  by_cases h6 : jfieldsHas fs2 "$urlsearchparams" = true
  · rw [if_neg h1, if_neg h2, if_neg h3, if_neg h4, if_neg h5, if_pos h6] at h; cases h
  by_cases h7 : jfieldsHas fs2 "$regexp" = true
  · rw [if_neg h1, if_neg h2, if_neg h3, if_neg h4, if_neg h5, if_neg h6, if_pos h7] at h
    cases h
  simp only [reservedTags, List.mem_cons, List.not_mem_nil, or_false] at ht
  rcases ht with rfl | rfl | rfl | rfl | rfl | rfl | rfl
  · exact Bool.eq_false_iff.mpr h1
  · exact Bool.eq_false_iff.mpr h2
  · exact Bool.eq_false_iff.mpr h3
  · exact Bool.eq_false_iff.mpr h4
  · exact Bool.eq_false_iff.mpr h5
  · exact Bool.eq_false_iff.mpr h6
  · exact Bool.eq_false_iff.mpr h7

/-- Claim C10: the smart serializer's round trip fails for plain objects
that coincidentally carry a reserved tag field: `parse` recognizes the
tag regardless of whether `stringify` produced it, so the object comes
back as the reconstructed tagged type instead of itself — e.g.
`parse(stringify({"$bigint": "5"}))` is the BigInt 5.  (The general part
assumes the tagged field's value itself serializes — a field that
serializes to `undefined` is dropped by `stringify` before `parse` can
see it.) -/
theorem serializer_reserved_tag_hijack :
    (∀ (fs : List (String × JVal)) (t : String) (v : JVal),
      (t, v) ∈ fs → t ∈ reservedTags → (replaceVal v).isSome = true →
      serializeRoundTrip (JVal.obj fs) ≠ some (JVal.obj fs)) ∧
    serializeRoundTrip (JVal.obj [("$bigint", JVal.str "5")]) = some (JVal.bigint 5) := by
  constructor
  · intro fs t v hmem htag hsome hcontra
    have hrt : serializeRoundTrip (JVal.obj fs) =
        some (reviveStep (JVal.obj (reviveFields (replaceFields fs)))) := rfl
    rw [hrt, Option.some.injEq] at hcontra
    have hhas := jfieldsHas_surviving_field fs t v hmem hsome
    have hno := reviveStep_obj_no_tags hcontra t htag
    rw [hhas] at hno
    cases hno
  · rfl

theorem serializer_reserved_tag_hijack_witness :
    serializeRoundTrip (JVal.obj [("$bigint", JVal.str "5")]) ≠
      some (JVal.obj [("$bigint", JVal.str "5")]) ∧
    serializeRoundTrip (JVal.obj [("$bigint", JVal.str "5")]) = some (JVal.bigint 5) :=
  ⟨serializer_reserved_tag_hijack.1 [("$bigint", JVal.str "5")] "$bigint" (JVal.str "5")
      (List.mem_cons_self _ _) (List.mem_cons_self _ _) rfl,
    serializer_reserved_tag_hijack.2⟩

/-! ## Serializer round-trip lemmas -/

theorem reviveList_eq_map (l : List Json) : reviveList l = l.map reviveVal := by
  induction l with
  | nil => rfl
  | cons x xs ih => simp [reviveList, ih]

theorem reviveList_replaceList : ∀ xs : List JVal,
    (∀ x ∈ xs, SerialWf x = true → serializeRoundTrip x = some x) →
    jvalListWf xs = true →
    reviveList (replaceList xs) = xs := by
  intro xs
  induction xs with
  | nil => intro _ _; rfl
  | cons x xs ih =>
    intro IH hwf
    simp only [jvalListWf, Bool.and_eq_true] at hwf
    obtain ⟨hwx, hwxs⟩ := hwf
    have h1 := IH x (List.mem_cons_self x xs) hwx
    simp only [serializeRoundTrip, Option.map_eq_some'] at h1
    obtain ⟨jx, hjx, hrev⟩ := h1
    simp only [replaceList, reviveList, hjx, Option.getD_some]
    rw [hrev, ih (fun y hy => IH y (List.mem_cons_of_mem x hy)) hwxs]

theorem reviveFields_replaceFields : ∀ fs : List (String × JVal),
    (∀ f ∈ fs, SerialWf f.2 = true → serializeRoundTrip f.2 = some f.2) →
    jvalFieldsWf fs = true →
    reviveFields (replaceFields fs) = fs := by
  intro fs
  induction fs with
  | nil => intro _ _; rfl
  | cons f fs ih =>
    intro IH hwf
    obtain ⟨k, v⟩ := f
    simp only [jvalFieldsWf, Bool.and_eq_true] at hwf
    obtain ⟨hwv, hwfs⟩ := hwf
    have h1 := IH (k, v) (List.mem_cons_self _ _) hwv
    simp only [serializeRoundTrip, Option.map_eq_some'] at h1
    obtain ⟨jv, hjv, hrev⟩ := h1
    simp only [replaceFields, hjv, reviveFields]
    rw [hrev, ih (fun g hg => IH g (List.mem_cons_of_mem _ hg)) hwfs]

theorem reviveList_replaceEntries : ∀ es : List (JVal × JVal),
    (∀ e ∈ es, SerialWf e.1 = true → serializeRoundTrip e.1 = some e.1) →
    (∀ e ∈ es, SerialWf e.2 = true → serializeRoundTrip e.2 = some e.2) →
    jvalEntriesWf es = true →
    reviveList (replaceEntries es) = es.map fun e => JVal.arr [e.1, e.2] := by
  intro es
  induction es with
  | nil => intro _ _ _; rfl
  | cons e es ih =>
    intro IH1 IH2 hwf
    obtain ⟨k, v⟩ := e
    simp only [jvalEntriesWf, Bool.and_eq_true] at hwf
    obtain ⟨⟨hwk, hwv⟩, hwes⟩ := hwf
    have h1 := IH1 (k, v) (List.mem_cons_self _ _) hwk
    have h2 := IH2 (k, v) (List.mem_cons_self _ _) hwv
    simp only [serializeRoundTrip, Option.map_eq_some'] at h1 h2
    obtain ⟨jk, hjk, hrevk⟩ := h1
    obtain ⟨jv, hjv, hrevv⟩ := h2
    simp only [replaceEntries, hjk, hjv, Option.getD_some, reviveList, reviveVal, List.map_cons]
    rw [hrevk, hrevv,
      ih (fun g hg => IH1 g (List.mem_cons_of_mem _ hg))
        (fun g hg => IH2 g (List.mem_cons_of_mem _ hg)) hwes]

theorem asEntries_of_pairs (es : List (JVal × JVal)) :
    asEntries (JVal.arr (es.map fun e => JVal.arr [e.1, e.2])) = es := by
  simp only [asEntries, List.map_map]
  have : ∀ e : JVal × JVal,
      ((fun x => match x with
        | JVal.arr (k :: v :: _) => (k, v)
        | JVal.arr [k] => (k, JVal.vundefined)
        | _ => (JVal.vundefined, JVal.vundefined)) ∘ fun e => JVal.arr [e.1, e.2]) e = e := by
    intro e
    rfl
  rw [List.map_congr_left fun e _ => this e]
  exact List.map_id es

theorem mapSetEntry_append : ∀ (acc : List (JVal × JVal)) (k v : JVal),
    (∀ a ∈ acc, jvalBEq a.1 k = false) →
    mapSetEntry acc k v = acc ++ [(k, v)] := by
  intro acc
  induction acc with
  | nil => intro k v _; rfl
  | cons a acc ih =>
    intro k v h
    obtain ⟨k1, v1⟩ := a
    have h1 : jvalBEq k1 k = false := h (k1, v1) (List.mem_cons_self _ _)
    simp only [mapSetEntry, h1, Bool.false_eq_true, if_false, List.cons_append,
      List.cons.injEq, true_and]
    exact ih k v fun a ha => h a (List.mem_cons_of_mem _ ha)

theorem mapFromList_aux : ∀ (es acc : List (JVal × JVal)),
    (∀ e ∈ es, ∀ a ∈ acc, jvalBEq a.1 e.1 = false) →
    pairwiseNe jvalBEq (es.map Prod.fst) = true →
    es.foldl (fun acc e => mapSetEntry acc e.1 e.2) acc = acc ++ es := by
  intro es
  induction es with
  | nil => intro acc _ _; simp
  | cons e es ih =>
    intro acc hacc hp
    obtain ⟨k, v⟩ := e
    simp only [List.map_cons, pairwiseNe, Bool.and_eq_true, List.all_eq_true] at hp
    obtain ⟨hall, hp2⟩ := hp
    simp only [List.foldl_cons]
    rw [mapSetEntry_append acc k v fun a ha => hacc (k, v) (List.mem_cons_self _ _) a ha]
    rw [ih (acc ++ [(k, v)]) ?_ hp2]
    · simp
    · intro e2 he2 a ha
      rcases List.mem_append.mp ha with ha1 | ha2
      · exact hacc e2 (List.mem_cons_of_mem _ he2) a ha1
      · simp only [List.mem_singleton] at ha2
        subst ha2
        have := hall e2.1 (List.mem_map_of_mem Prod.fst he2)
        simpa using this

theorem mapFromList_id (es : List (JVal × JVal))
    (hp : pairwiseNe jvalBEq (es.map Prod.fst) = true) :
    mapFromList es = es := by
  have := mapFromList_aux es [] (by intro e _ a ha; cases ha) hp
  simpa [mapFromList] using this

theorem setAdd_append (acc : List JVal) (x : JVal)
    (h : ∀ a ∈ acc, jvalBEq a x = false) :
    setAdd acc x = acc ++ [x] := by
  simp only [setAdd]
  rw [if_neg]
  intro hc
  obtain ⟨a, ha, hbeq⟩ := List.any_eq_true.mp hc
  rw [h a ha] at hbeq
  cases hbeq

theorem setFromList_aux : ∀ (xs acc : List JVal),
    (∀ x ∈ xs, ∀ a ∈ acc, jvalBEq a x = false) →
    pairwiseNe jvalBEq xs = true →
    xs.foldl setAdd acc = acc ++ xs := by
  intro xs
  induction xs with
  | nil => intro acc _ _; simp
  | cons x xs ih =>
    intro acc hacc hp
    simp only [pairwiseNe, Bool.and_eq_true, List.all_eq_true] at hp
    obtain ⟨hall, hp2⟩ := hp
    simp only [List.foldl_cons]
    rw [setAdd_append acc x fun a ha => hacc x (List.mem_cons_self _ _) a ha]
    rw [ih (acc ++ [x]) ?_ hp2]
    · simp
    · intro y hy a ha
      rcases List.mem_append.mp ha with ha1 | ha2
      · exact hacc y (List.mem_cons_of_mem _ hy) a ha1
      · simp only [List.mem_singleton] at ha2
        subst ha2
        have := hall y hy
        simpa using this

theorem setFromList_id (xs : List JVal) (hp : pairwiseNe jvalBEq xs = true) :
    setFromList xs = xs := by
  have := setFromList_aux xs [] (by intro x _ a ha; cases ha) hp
  simpa [setFromList] using this

theorem asBytes_roundtrip (bs : List Nat) (h : bs.all (fun b => b < 256) = true) :
    asBytes (JVal.arr (reviveList (bs.map fun b => Json.num (Int.ofNat b)))) = bs := by
  rw [reviveList_eq_map, List.map_map]
  simp only [asBytes, List.map_map]
  have hpt : ∀ b ∈ bs, byteOfInt (Int.ofNat b) = b := by
    intro b hb
    have hlt : b < 256 := by simpa using List.all_eq_true.mp h b hb
    simp only [byteOfInt, Int.ofNat_eq_coe]
    omega
  have : ∀ b ∈ bs,
      ((fun x => match x with | JVal.num n => byteOfInt n | _ => 0) ∘
        reviveVal ∘ fun b => Json.num (Int.ofNat b)) b = b := by
    intro b hb
    simp only [Function.comp]
    exact hpt b hb
  rw [List.map_congr_left this]
  exact List.map_id bs

theorem jfieldsHas_false_of_no_tag (fs : List (String × JVal))
    (h : hasReservedTag fs = false) (t : String) (ht : t ∈ reservedTags) :
    jfieldsHas fs t = false := by
  cases hc : jfieldsHas fs t
  · rfl
  · exfalso
    obtain ⟨f, hf, hbeq⟩ := List.any_eq_true.mp hc
    have hft : f.1 = t := by simpa using hbeq
    have : hasReservedTag fs = true := by
      apply List.any_eq_true.mpr
      refine ⟨f, hf, ?_⟩
      rw [hft]
      simpa using ht
    rw [h] at this
    cases this

theorem reviveStep_obj_id (fs : List (String × JVal)) (h : hasReservedTag fs = false) :
    reviveStep (JVal.obj fs) = JVal.obj fs := by
  have h1 := jfieldsHas_false_of_no_tag fs h "$bigint" (by simp [reservedTags])
  have h2 := jfieldsHas_false_of_no_tag fs h "$uint8array" (by simp [reservedTags])
  have h3 := jfieldsHas_false_of_no_tag fs h "$arraybuffer" (by simp [reservedTags])
  have h4 := jfieldsHas_false_of_no_tag fs h "$map" (by simp [reservedTags])
  have h5 := jfieldsHas_false_of_no_tag fs h "$set" (by simp [reservedTags])
  have h6 := jfieldsHas_false_of_no_tag fs h "$urlsearchparams" (by simp [reservedTags])
  have h7 := jfieldsHas_false_of_no_tag fs h "$regexp" (by simp [reservedTags])
  simp [reviveStep, h1, h2, h3, h4, h5, h6, h7]

theorem serializer_round_trip_aux :
    ∀ (N : Nat) (v : JVal), sizeOf v ≤ N → SerialWf v = true →
      serializeRoundTrip v = some v := by
  intro N
  induction N with
  | zero =>
    intro v hsz _
    exfalso
    have h0 : 0 < sizeOf v := by cases v <;> simp_arith
    omega
  | succ N ih =>
    intro v hsz hwf
    cases v with
    | vnull => rfl
    | vundefined => cases hwf
    | bool b => rfl
    | num n => rfl
    | str s => rfl
    | bigint n =>
      have h : serializeRoundTrip (JVal.bigint n) =
          some (JVal.bigint (parseInt (printInt n))) := rfl
      rw [h, parseInt_printInt]
    | date iso => cases hwf
    | token id => cases hwf
    | uint8array bs =>
      have h : serializeRoundTrip (JVal.uint8array bs) =
          some (JVal.uint8array (asBytes (JVal.arr
            (reviveList (bs.map fun b => Json.num (Int.ofNat b)))))) := rfl
      rw [h, asBytes_roundtrip bs hwf]
    | arraybuffer bs =>
      have h : serializeRoundTrip (JVal.arraybuffer bs) =
          some (JVal.arraybuffer (asBytes (JVal.arr
            (reviveList (bs.map fun b => Json.num (Int.ofNat b)))))) := rfl
      rw [h, asBytes_roundtrip bs hwf]
    | map es =>
      simp only [SerialWf, Bool.and_eq_true] at hwf
      obtain ⟨hwes, hpk⟩ := hwf
      simp only [JVal.map.sizeOf_spec] at hsz
      have hIH1 : ∀ e ∈ es, SerialWf e.1 = true → serializeRoundTrip e.1 = some e.1 := by
        intro e he hw
        apply ih e.1 ?_ hw
        have h1 := List.sizeOf_lt_of_mem he
        have h2 : sizeOf e.1 < sizeOf e := by
          obtain ⟨a, b⟩ := e
          simp_arith
        omega
      have hIH2 : ∀ e ∈ es, SerialWf e.2 = true → serializeRoundTrip e.2 = some e.2 := by
        intro e he hw
        apply ih e.2 ?_ hw
        have h1 := List.sizeOf_lt_of_mem he
        have h2 : sizeOf e.2 < sizeOf e := by
          obtain ⟨a, b⟩ := e
          simp_arith
        omega
      have h : serializeRoundTrip (JVal.map es) =
          some (JVal.map (mapFromList (asEntries (JVal.arr
            (reviveList (replaceEntries es)))))) := rfl
      rw [h, reviveList_replaceEntries es hIH1 hIH2 hwes, asEntries_of_pairs,
        mapFromList_id es hpk]
    | set xs =>
      simp only [SerialWf, Bool.and_eq_true] at hwf
      obtain ⟨hwxs, hpx⟩ := hwf
      simp only [JVal.set.sizeOf_spec] at hsz
      have hIH : ∀ x ∈ xs, SerialWf x = true → serializeRoundTrip x = some x := by
        intro x hx hw
        apply ih x ?_ hw
        have h1 := List.sizeOf_lt_of_mem hx
        omega
      have h : serializeRoundTrip (JVal.set xs) =
          some (JVal.set (setFromList (reviveList (replaceList xs)))) := rfl
      rw [h, reviveList_replaceList xs hIH hwxs, setFromList_id xs hpx]
    | urlsearchparams q => rfl
    | regexp s f => rfl
    | arr xs =>
      simp only [JVal.arr.sizeOf_spec] at hsz
      have hIH : ∀ x ∈ xs, SerialWf x = true → serializeRoundTrip x = some x := by
        intro x hx hw
        apply ih x ?_ hw
        have h1 := List.sizeOf_lt_of_mem hx
        omega
      have h : serializeRoundTrip (JVal.arr xs) =
          some (JVal.arr (reviveList (replaceList xs))) := rfl
      rw [h, reviveList_replaceList xs hIH hwf]
    | obj fs =>
      simp only [SerialWf, Bool.and_eq_true] at hwf
      obtain ⟨hwfs, hnt⟩ := hwf
      simp only [JVal.obj.sizeOf_spec] at hsz
      have hIH : ∀ f ∈ fs, SerialWf f.2 = true → serializeRoundTrip f.2 = some f.2 := by
        intro f hf hw
        apply ih f.2 ?_ hw
        have h1 := List.sizeOf_lt_of_mem hf
        have h2 : sizeOf f.2 < sizeOf f := by
          obtain ⟨a, b⟩ := f
          simp_arith
        omega
      have h : serializeRoundTrip (JVal.obj fs) =
          some (reviveStep (JVal.obj (reviveFields (replaceFields fs)))) := rfl
      rw [h, reviveFields_replaceFields fs hIH hwfs,
        reviveStep_obj_id fs (by simpa using hnt)]

/-- Claim C6: for the default smart value serializer,
`parse(stringify(v))` returns a value equal to the original whenever `v`
is (or contains) a `BigInt`, `Uint8Array` or `ArrayBuffer`, `Map`, `Set`,
or `RegExp` — that is, for every wellformed value built from the
supported types — whereas `parse(stringify(d))` of a `Date` returns its
ISO string, not a `Date`: the asymmetry is preserved, not repaired. -/
theorem serializer_round_trip :
    (∀ v : JVal, SerialWf v = true → serializeRoundTrip v = some v) ∧
    (∀ iso : String, serializeRoundTrip (JVal.date iso) = some (JVal.str iso)) :=
  ⟨fun v h => serializer_round_trip_aux (sizeOf v) v (le_refl _) h, fun _ => rfl⟩

theorem serializer_round_trip_witness :
    SerialWf sampleComposite = true ∧
    serializeRoundTrip sampleComposite = some sampleComposite ∧
    serializeRoundTrip (JVal.date "1970-01-01T00:00:00.001Z") =
      some (JVal.str "1970-01-01T00:00:00.001Z") :=
  ⟨rfl, serializer_round_trip.1 sampleComposite rfl,
    serializer_round_trip.2 "1970-01-01T00:00:00.001Z"⟩
